import Mathlib

/-!
Shallow embedding of `src/data_processing.py`: a sentiment-corpus reader,
a vocabulary builder and a bag-of-words vectorizer, together with proofs of
the specified properties.

Modelling conventions:
* Python `str` is Lean `String`; the file's content is modelled as the list
  of lines produced by `readlines` (file I/O itself is out of scope).
* The external tokenizer `tokenize` (from `utils.py`, a collaborator of the
  reader) is a parameter `tok : String → List String`.
* A Python `Dict[str, int]` is an association list `List (String × Int)`;
  Python dictionaries have pairwise-distinct keys, which appears as a
  `Nodup` hypothesis where a proof needs it.
* A torch tensor of counts is a `List Nat`; tensor element assignment
  `bow[i] = v` accepts indices `-n ≤ i < n` (negative indices wrap) and
  raises `IndexError` otherwise, modelled by `setIdx` returning `Option`.
* Python `int(s)` parsing is `pyInt`; `IndexError` / `ValueError` during
  the corpus read are the constructors of `ReadError`.
* `Counter(text)` iterates its keys in first-occurrence order of `text`
  (Python 3.7+ dict order); `dedupFirst` reproduces that key order.
* `list(set(...))` in `build_vocab` enumerates the distinct words in an
  order that Python leaves unspecified; the model fixes first-occurrence
  order.  Every property proved about `build_vocab` is invariant under the
  enumeration order.
-/

/-- A labelled example: the tokenized text and its integer label
(`SentimentExample` from `utils.py`). -/
structure SentimentExample where
  words : List String
  label : Int
deriving Repr, DecidableEq

/-- Errors the corpus reader can raise: `line.split("\t")[1]` on a line
with no tab raises `IndexError`; `int(s)` on a non-numeric field raises
`ValueError`. -/
inductive ReadError where
  | indexOutOfRange : ReadError
  | intFormat : String → ReadError
deriving Repr, DecidableEq

instance {ε α : Type} [DecidableEq ε] [DecidableEq α] :
    DecidableEq (Except ε α) := fun x y =>
  match x, y with
  | Except.ok a, Except.ok b =>
      if h : a = b then isTrue (by rw [h])
      else isFalse (fun hc => h (by injection hc))
  | Except.error a, Except.error b =>
      if h : a = b then isTrue (by rw [h])
      else isFalse (fun hc => h (by injection hc))
  | Except.ok _, Except.error _ => isFalse (fun hc => Except.noConfusion hc)
  | Except.error _, Except.ok _ => isFalse (fun hc => Except.noConfusion hc)

/-- Strip leading and trailing whitespace characters (the stripping that
Python `int(s)` applies to its argument). -/
def stripWs (cs : List Char) : List Char :=
  ((cs.dropWhile Char.isWhitespace).reverse.dropWhile Char.isWhitespace).reverse

/-- Python `line.split("\t")`: split on every tab character, keeping empty
fields; the empty string yields the one-field list `[""]`. -/
def splitTabAux : List Char → List Char → List String
  | [], acc => [String.mk acc.reverse]
  | c :: cs, acc =>
      if c = '\t' then String.mk acc.reverse :: splitTabAux cs []
      else splitTabAux cs (c :: acc)

/-- `line.split("\t")` on a whole line. -/
def splitTab (line : String) : List String :=
  splitTabAux line.toList []

/-- Numeric value of a list of decimal digit characters. -/
def digitsVal (ds : List Char) : Nat :=
  ds.foldl (fun a c => 10 * a + (c.toNat - 48)) 0

/-- Python `int(s)` on a base-10 string: surrounding whitespace is
stripped, an optional single sign is allowed, and the remainder must be a
non-empty run of decimal digits; anything else raises `ValueError`. -/
def pyInt (s : String) : Option Int :=
  match stripWs s.toList with
  | [] => none
  | '+' :: ds =>
      if ds.isEmpty then none
      else if ds.all Char.isDigit then some (digitsVal ds : Int) else none
  | '-' :: ds =>
      if ds.isEmpty then none
      else if ds.all Char.isDigit then some (-(digitsVal ds : Int)) else none
  | ds =>
      if ds.all Char.isDigit then some (digitsVal ds : Int) else none

/-- One step of the reader's list comprehension:
`SentimentExample(tokenize(line.split("\t")[0]), int(line.split("\t")[1]))`.
`split` never returns an empty list, so field 0 always exists; field 1
exists only when the line contains a tab. -/
def parseLine (tok : String → List String) (line : String) :
    Except ReadError SentimentExample :=
  match splitTab line with
  | [] => Except.error ReadError.indexOutOfRange
  | [_] => Except.error ReadError.indexOutOfRange
  | t :: s :: _ =>
      match pyInt s with
      | none => Except.error (ReadError.intFormat s)
      | some n => Except.ok ⟨tok t, n⟩

/-- `read_sentiment_examples`, applied to the lines of the file: the list
comprehension builds one example per line in order, and the first raised
error aborts the whole read with no partial result. -/
def read_sentiment_examples (tok : String → List String) :
    List String → Except ReadError (List SentimentExample)
  | [] => Except.ok []
  | l :: rest =>
      match parseLine tok l with
      | Except.error e => Except.error e
      | Except.ok ex =>
          match read_sentiment_examples tok rest with
          | Except.error e => Except.error e
          | Except.ok exs => Except.ok (ex :: exs)

/-- The distinct words of a list in first-occurrence order: the key order
of `Counter(text)` and the model's enumeration order for `list(set(...))`. -/
def dedupFirst : List String → List String
  | [] => []
  | w :: rest => w :: (dedupFirst rest).filter (fun u => u ≠ w)

/-- `build_vocab`: collect the distinct words of all examples and
enumerate them, mapping each word to its index. -/
def build_vocab (examples : List SentimentExample) : List (String × Int) :=
  let distinct_words := dedupFirst (examples.flatMap (fun e => e.words))
  distinct_words.enum.map (fun p => (p.2, (p.1 : Int)))

/-- Python dict lookup `vocab[word]` (also deciding `word in vocab`):
keys of a dict are distinct, so the first matching pair is the only one. -/
def lookup (vocab : List (String × Int)) (w : String) : Option Int :=
  match vocab.find? (fun p => p.1 == w) with
  | none => none
  | some p => some p.2

/-- Tensor index normalization: a negative index counts from the end. -/
def normIdx (n : Nat) (i : Int) : Int :=
  if i < 0 then i + (n : Int) else i

/-- Tensor element assignment `bow[i] = x`: valid for `-n ≤ i < n`
(negative indices wrap), `IndexError` (`none`) otherwise. -/
def setIdx (bow : List Nat) (i : Int) (x : Nat) : Option (List Nat) :=
  if 0 ≤ normIdx bow.length i ∧ normIdx bow.length i < (bow.length : Int)
  then some (bow.set (normIdx bow.length i).toNat x)
  else none

/-- The vectorizer's write loop, shared shape of both branches of
`bag_of_words`: `for w in ws: if w in vocab: bow[vocab[w]] = val w`. -/
def bowWrite (vocab : List (String × Int)) (val : String → Nat) :
    List String → List Nat → Option (List Nat)
  | [], bow => some bow
  | w :: ws, bow =>
      match lookup vocab w with
      | none => bowWrite vocab val ws bow
      | some i =>
          match setIdx bow i (val w) with
          | none => none
          | some bow' => bowWrite vocab val ws bow'

/-- `bag_of_words`: a zero vector of length `len(vocab)`; in binary mode
each in-vocabulary token of `text` writes `1` at its index, in count mode
each distinct token (in `Counter` key order) writes its occurrence count. -/
def bag_of_words (text : List String) (vocab : List (String × Int))
    (binary : Bool := false) : Option (List Nat) :=
  let bow := List.replicate vocab.length 0
  if binary then bowWrite vocab (fun _ => 1) text bow
  else bowWrite vocab (fun w => text.count w) (dedupFirst text) bow

/-- The word whose write is the last to land on entry `j` when the write
loop runs over `ws` (later list elements overwrite earlier ones). -/
def lastWrite (vocab : List (String × Int)) (n : Nat) (j : Nat) :
    List String → Option String
  | [] => none
  | w :: ws =>
      match lastWrite vocab n j ws with
      | some u => some u
      | none =>
          match lookup vocab w with
          | none => none
          | some i => if normIdx n i = (j : Int) then some w else none

/-- A tensor write at index `i` succeeds exactly for `-n ≤ i < n`. -/
theorem normIdx_valid_iff (n : Nat) (i : Int) :
    (0 ≤ normIdx n i ∧ normIdx n i < (n : Int)) ↔
      (-(n : Int) ≤ i ∧ i < (n : Int)) := by
  unfold normIdx
  by_cases h : i < 0 <;> simp [h] <;> omega

theorem setIdx_eq_some (bow : List Nat) (i : Int) (x : Nat)
    (h : -(bow.length : Int) ≤ i ∧ i < (bow.length : Int)) :
    setIdx bow i x = some (bow.set (normIdx bow.length i).toNat x) := by
  unfold setIdx
  rw [if_pos ((normIdx_valid_iff bow.length i).mpr h)]

theorem setIdx_some_elim (bow : List Nat) (i : Int) (x : Nat) (r : List Nat)
    (h : setIdx bow i x = some r) :
    0 ≤ normIdx bow.length i ∧ normIdx bow.length i < (bow.length : Int) ∧
      r = bow.set (normIdx bow.length i).toNat x := by
  unfold setIdx at h
  split at h
  case isTrue hc => cases h; exact ⟨hc.1, hc.2, rfl⟩
  case isFalse => cases h

theorem setIdx_length (bow : List Nat) (i : Int) (x : Nat) (r : List Nat)
    (h : setIdx bow i x = some r) : r.length = bow.length := by
  obtain ⟨-, -, rfl⟩ := setIdx_some_elim bow i x r h
  exact List.length_set ..

/-- The write loop never fails when every looked-up index of a processed
word is a valid tensor index, and it preserves the vector length. -/
theorem bowWrite_total (vocab : List (String × Int)) (val : String → Nat)
    (ws : List String) (bow : List Nat)
    (h : ∀ w ∈ ws, ∀ i, lookup vocab w = some i →
      -(bow.length : Int) ≤ i ∧ i < (bow.length : Int)) :
    ∃ r, bowWrite vocab val ws bow = some r ∧ r.length = bow.length := by
  induction ws generalizing bow with
  | nil => exact ⟨bow, rfl, rfl⟩
  | cons w ws ih =>
    cases hw : lookup vocab w with
    | none =>
      obtain ⟨r, hr, hrlen⟩ :=
        ih bow (fun u hu i hi => h u (List.mem_cons_of_mem w hu) i hi)
      refine ⟨r, ?_, hrlen⟩
      simp only [bowWrite, hw]
      exact hr
    | some i =>
      have hv := h w (List.mem_cons_self w ws) i hw
      have hlen : (bow.set (normIdx bow.length i).toNat (val w)).length
          = bow.length := List.length_set ..
      obtain ⟨r, hr, hrlen⟩ := ih (bow.set (normIdx bow.length i).toNat (val w))
        (by rw [hlen]; exact fun u hu k hk => h u (List.mem_cons_of_mem w hu) k hk)
      refine ⟨r, ?_, by rw [hrlen, hlen]⟩
      simp only [bowWrite, hw, setIdx_eq_some bow i (val w) hv]
      exact hr

/-- Entry `j` of the result of the write loop: the count written by the
last word whose index lands on `j`, or the initial entry if none does. -/
theorem bowWrite_getElem? (vocab : List (String × Int)) (val : String → Nat)
    (ws : List String) (bow r : List Nat) (j : Nat)
    (h : bowWrite vocab val ws bow = some r) :
    r[j]? = match lastWrite vocab bow.length j ws with
      | some u => some (val u)
      | none => bow[j]? := by
  induction ws generalizing bow with
  | nil =>
    unfold bowWrite at h
    cases h
    unfold lastWrite
    rfl
  | cons w ws ih =>
    cases hw : lookup vocab w with
    | none =>
      simp only [bowWrite, hw] at h
      rw [ih bow h]
      cases hlast : lastWrite vocab bow.length j ws <;>
        simp only [lastWrite, hw, hlast]
    | some i =>
      simp only [bowWrite, hw] at h
      cases hs : setIdx bow i (val w) with
      | none =>
        rw [hs] at h
        exact Option.noConfusion h
      | some bow' =>
        rw [hs] at h
        have h' : bowWrite vocab val ws bow' = some r := h
        have hlen : bow'.length = bow.length := setIdx_length bow i (val w) bow' hs
        have hrec := ih bow' h'
        rw [hlen] at hrec
        rw [hrec]
        cases hlast : lastWrite vocab bow.length j ws with
        | some u => simp only [lastWrite, hw, hlast]
        | none =>
          simp only [lastWrite, hw, hlast]
          obtain ⟨h0, hlt, rfl⟩ := setIdx_some_elim bow i (val w) bow' hs
          by_cases hj : normIdx bow.length i = (j : Int)
          · rw [if_pos hj]
            have hjlt : j < bow.length := by
              rw [hj] at hlt
              exact_mod_cast hlt
            have hjn : (normIdx bow.length i).toNat = j := by
              rw [hj]; exact Int.toNat_natCast j
            have : (bow.set (normIdx bow.length i).toNat (val w))[j]? =
                some (val w) := by
              rw [hjn]; exact List.getElem?_set_eq_of_lt (val w) hjlt
            exact this
          · rw [if_neg hj]
            have hne : (normIdx bow.length i).toNat ≠ j := fun hc =>
              hj (by rw [← hc, Int.toNat_of_nonneg h0])
            exact List.getElem?_set_ne hne

theorem lookup_nil (w : String) : lookup [] w = none := rfl

theorem lookup_cons (p : String × Int) (rest : List (String × Int)) (w : String) :
    lookup (p :: rest) w = if p.1 = w then some p.2 else lookup rest w := by
  by_cases hpw : p.1 = w
  · rw [if_pos hpw]
    unfold lookup
    rw [List.find?_cons_of_pos _ (by simpa using hpw)]
  · rw [if_neg hpw]
    unfold lookup
    rw [List.find?_cons_of_neg _ (by simpa using hpw)]

/-- A successful dict lookup comes from a pair of the dict. -/
theorem lookup_mem (vocab : List (String × Int)) (w : String) (i : Int)
    (h : lookup vocab w = some i) : (w, i) ∈ vocab := by
  induction vocab with
  | nil => cases h
  | cons p rest ih =>
    rw [lookup_cons] at h
    by_cases hpw : p.1 = w
    · rw [if_pos hpw] at h
      injection h with hbi
      have hp : p = (w, i) := Prod.ext_iff.mpr ⟨hpw, hbi⟩
      rw [← hp]
      exact List.mem_cons_self p rest
    · rw [if_neg hpw] at h
      exact List.mem_cons_of_mem p (ih h)

/-- With distinct keys, every pair of the dict is found by lookup. -/
theorem mem_lookup (vocab : List (String × Int)) (w : String) (i : Int)
    (hnd : (vocab.map Prod.fst).Nodup) (h : (w, i) ∈ vocab) :
    lookup vocab w = some i := by
  induction vocab with
  | nil => cases h
  | cons p rest ih =>
    rw [List.map_cons, List.nodup_cons] at hnd
    rw [lookup_cons]
    rcases List.mem_cons.mp h with heq | hmem
    · rw [← heq]
      simp
    · have hpw : p.1 ≠ w := by
        intro hc
        exact hnd.1 (hc ▸ List.mem_map_of_mem Prod.fst hmem)
      rw [if_neg hpw]
      exact ih hnd.2 hmem

theorem mem_dedupFirst (w : String) (l : List String) :
    w ∈ dedupFirst l ↔ w ∈ l := by
  induction l with
  | nil => simp [dedupFirst]
  | cons x rest ih =>
    simp only [dedupFirst, List.mem_cons, List.mem_filter, ih,
      decide_eq_true_eq]
    by_cases hval : w = x <;> simp [hval]

theorem nodup_dedupFirst (l : List String) : (dedupFirst l).Nodup := by
  induction l with
  | nil => simp [dedupFirst]
  | cons x rest ih =>
    rw [dedupFirst, List.nodup_cons]
    refine ⟨?_, ih.filter _⟩
    simp [List.mem_filter]

/-- The vocabulary invariant of the data model: distinct keys (a dict),
every index a valid position of the vector, and no two words sharing an
index (with the length, this makes the indices exactly `{0, …, k-1}`). -/
def WFvocab (vocab : List (String × Int)) : Prop :=
  (vocab.map Prod.fst).Nodup ∧
  (∀ p ∈ vocab, 0 ≤ p.2 ∧ p.2 < (vocab.length : Int)) ∧
  (∀ p ∈ vocab, ∀ q ∈ vocab, p.2 = q.2 → p = q)

instance (vocab : List (String × Int)) : Decidable (WFvocab vocab) := by
  unfold WFvocab
  exact inferInstance

theorem normIdx_of_nonneg (n : Nat) (i : Int) (h : 0 ≤ i) :
    normIdx n i = i := by
  unfold normIdx
  rw [if_neg (by omega)]

/-- Under the vocabulary invariant, the last (indeed the only) word whose
write lands on the index of `w` is `w` itself, provided `w` is processed. -/
theorem lastWrite_of_WF (vocab : List (String × Int)) (hWF : WFvocab vocab)
    (w : String) (i : Nat) (hmem : (w, (i : Int)) ∈ vocab) (ws : List String) :
    lastWrite vocab vocab.length i ws = if w ∈ ws then some w else none := by
  obtain ⟨hnd, hrange, hinj⟩ := hWF
  induction ws with
  | nil => simp [lastWrite]
  | cons u rest ih =>
    by_cases hwr : w ∈ rest
    · rw [if_pos (List.mem_cons_of_mem u hwr)]
      rw [if_pos hwr] at ih
      simp only [lastWrite, ih]
    · rw [if_neg hwr] at ih
      by_cases huw : u = w
      · subst huw
        rw [if_pos (List.mem_cons_self u rest)]
        have hlk : lookup vocab u = some ((i : Int)) :=
          mem_lookup vocab u (i : Int) hnd hmem
        have hnn : normIdx vocab.length (i : Int) = (i : Int) :=
          normIdx_of_nonneg _ _ (by positivity)
        simp only [lastWrite, ih, hlk, hnn]
        simp
      · rw [if_neg (by simp [huw, hwr, Ne.symm])]
        cases hlk : lookup vocab u with
        | none => simp only [lastWrite, ih, hlk]
        | some i' =>
          have hmem' : (u, i') ∈ vocab := lookup_mem vocab u i' hlk
          have h0 : 0 ≤ i' := (hrange _ hmem').1
          have hnn : normIdx vocab.length i' = i' := normIdx_of_nonneg _ _ h0
          have hne : i' ≠ (i : Int) := by
            intro hc
            exact huw (congrArg Prod.fst (hinj _ hmem' _ hmem hc))
          simp only [lastWrite, ih, hlk, hnn, if_neg hne]

theorem bowWrite_nil_vocab (val : String → Nat) (ws : List String)
    (bow : List Nat) : bowWrite [] val ws bow = some bow := by
  induction ws with
  | nil => rfl
  | cons w ws ih =>
    simp only [bowWrite, lookup_nil]
    exact ih

/-- C1: in count mode, under the vocabulary invariant, `bag_of_words`
returns a vector of length `|V|` whose entry at the index of each
vocabulary word is that word's exact occurrence count in the token list
(`0` when it does not occur); out-of-vocabulary tokens contribute
nothing. -/
theorem bag_of_words_count_exact (text : List String)
    (vocab : List (String × Int)) (hWF : WFvocab vocab) :
    ∃ r, bag_of_words text vocab false = some r ∧ r.length = vocab.length ∧
      ∀ w : String, ∀ i : Nat, (w, (i : Int)) ∈ vocab →
        r[i]? = some (text.count w) := by
  obtain ⟨hnd, hrange, hinj⟩ := hWF
  have hlen0 : (List.replicate vocab.length (0 : Nat)).length = vocab.length :=
    List.length_replicate ..
  have hvalid : ∀ w ∈ dedupFirst text, ∀ i, lookup vocab w = some i →
      -((List.replicate vocab.length (0 : Nat)).length : Int) ≤ i ∧
        i < ((List.replicate vocab.length (0 : Nat)).length : Int) := by
    intro w _ i hi
    have hh := hrange _ (lookup_mem vocab w i hi)
    rw [hlen0]
    exact ⟨by omega, hh.2⟩
  obtain ⟨r, hr, hrlen⟩ := bowWrite_total vocab (fun w => text.count w)
    (dedupFirst text) (List.replicate vocab.length 0) hvalid
  refine ⟨r, ?_, by rw [hrlen, hlen0], ?_⟩
  · simp only [bag_of_words, Bool.false_eq_true, if_false]
    exact hr
  · intro w i hmem
    have hgw := bowWrite_getElem? vocab (fun w => text.count w)
      (dedupFirst text) (List.replicate vocab.length 0) r i hr
    rw [hlen0,
      lastWrite_of_WF vocab ⟨hnd, hrange, hinj⟩ w i hmem (dedupFirst text)]
      at hgw
    by_cases hwt : w ∈ text
    · rw [if_pos ((mem_dedupFirst w text).mpr hwt)] at hgw
      exact hgw
    · rw [if_neg (fun hc => hwt ((mem_dedupFirst w text).mp hc))] at hgw
      have hi : i < vocab.length := by
        have h2 : ((i : Int)) < (vocab.length : Int) := (hrange _ hmem).2
        exact_mod_cast h2
      have hrep : (List.replicate vocab.length (0 : Nat))[i]? = some 0 := by
        rw [List.getElem?_replicate, if_pos hi]
      rw [List.count_eq_zero.mpr hwt]
      exact hgw.trans hrep

/-- C1 witness: the count-mode theorem applied to a concrete text and a
concrete well-formed vocabulary. -/
theorem bag_of_words_count_exact_witness :
    WFvocab [("good", 0), ("movie", 1)] ∧
    (∃ r, bag_of_words ["movie", "good", "movie"] [("good", 0), ("movie", 1)]
        false = some r ∧
      r.length = 2 ∧
      ∀ w : String, ∀ i : Nat,
        (w, (i : Int)) ∈ [(("good" : String), (0 : Int)), ("movie", 1)] →
          r[i]? = some (List.count w ["movie", "good", "movie"])) :=
  ⟨by decide,
    bag_of_words_count_exact ["movie", "good", "movie"]
      [("good", 0), ("movie", 1)] (by decide)⟩

/-- C2: in binary mode, under the vocabulary invariant, `bag_of_words`
returns a vector of length `|V|` whose entries are all `0` or `1`, with a
`1` at the index of a vocabulary word exactly when that word occurs in the
token list; repeated occurrences have no further effect. -/
theorem bag_of_words_binary_exact (text : List String)
    (vocab : List (String × Int)) (hWF : WFvocab vocab) :
    ∃ r, bag_of_words text vocab true = some r ∧ r.length = vocab.length ∧
      (∀ w : String, ∀ i : Nat, (w, (i : Int)) ∈ vocab →
        r[i]? = some (if w ∈ text then 1 else 0)) ∧
      (∀ j : Nat, j < r.length → r[j]? = some 0 ∨ r[j]? = some 1) := by
  obtain ⟨hnd, hrange, hinj⟩ := hWF
  have hlen0 : (List.replicate vocab.length (0 : Nat)).length = vocab.length :=
    List.length_replicate ..
  have hvalid : ∀ w ∈ text, ∀ i, lookup vocab w = some i →
      -((List.replicate vocab.length (0 : Nat)).length : Int) ≤ i ∧
        i < ((List.replicate vocab.length (0 : Nat)).length : Int) := by
    intro w _ i hi
    have hh := hrange _ (lookup_mem vocab w i hi)
    rw [hlen0]
    exact ⟨by omega, hh.2⟩
  obtain ⟨r, hr, hrlen⟩ := bowWrite_total vocab (fun _ => 1) text
    (List.replicate vocab.length 0) hvalid
  refine ⟨r, ?_, by rw [hrlen, hlen0], ?_, ?_⟩
  · simp only [bag_of_words, if_true]
    exact hr
  · intro w i hmem
    have hgw := bowWrite_getElem? vocab (fun _ => 1) text
      (List.replicate vocab.length 0) r i hr
    rw [hlen0, lastWrite_of_WF vocab ⟨hnd, hrange, hinj⟩ w i hmem text] at hgw
    by_cases hwt : w ∈ text
    · rw [if_pos hwt] at hgw
      rw [if_pos hwt]
      exact hgw
    · rw [if_neg hwt] at hgw
      rw [if_neg hwt]
      have hi : i < vocab.length := by
        have h2 : ((i : Int)) < (vocab.length : Int) := (hrange _ hmem).2
        exact_mod_cast h2
      have hrep : (List.replicate vocab.length (0 : Nat))[i]? = some 0 := by
        rw [List.getElem?_replicate, if_pos hi]
      exact hgw.trans hrep
  · intro j hj
    have hgw := bowWrite_getElem? vocab (fun _ => 1) text
      (List.replicate vocab.length 0) r j hr
    cases hlast : lastWrite vocab (List.replicate vocab.length (0 : Nat)).length
        j text with
    | some u =>
      rw [hlast] at hgw
      exact Or.inr hgw
    | none =>
      rw [hlast] at hgw
      have hjv : j < vocab.length := by rw [← hlen0, ← hrlen]; exact hj
      have hrep : (List.replicate vocab.length (0 : Nat))[j]? = some 0 := by
        rw [List.getElem?_replicate, if_pos hjv]
      exact Or.inl (hgw.trans hrep)

/-- C2 witness: the binary-mode theorem applied to a concrete text with a
repeated word and a concrete well-formed vocabulary. -/
theorem bag_of_words_binary_exact_witness :
    WFvocab [("good", 0), ("movie", 1), ("bad", 2)] ∧
    (∃ r, bag_of_words ["movie", "good", "movie"]
        [("good", 0), ("movie", 1), ("bad", 2)] true = some r ∧
      r.length = 3 ∧
      (∀ w : String, ∀ i : Nat,
        (w, (i : Int)) ∈ [(("good" : String), (0 : Int)), ("movie", 1), ("bad", 2)] →
          r[i]? = some (if w ∈ ["movie", "good", "movie"] then 1 else 0)) ∧
      (∀ j : Nat, j < r.length → r[j]? = some 0 ∨ r[j]? = some 1)) :=
  ⟨by decide,
    bag_of_words_binary_exact ["movie", "good", "movie"]
      [("good", 0), ("movie", 1), ("bad", 2)] (by decide)⟩

/-- C8: with an empty vocabulary, `bag_of_words` returns the length-0
vector without error on any token list, in both modes. -/
theorem bag_of_words_empty_vocab (text : List String) (b : Bool) :
    bag_of_words text [] b = some [] := by
  cases b <;> simp [bag_of_words, bowWrite_nil_vocab]

/-- C3: `build_vocab` maps the distinct words of the examples bijectively
onto the dense index range `{0, …, k-1}`: its keys are exactly the words
occurring in the examples, no key repeats, its value list is exactly
`[0, …, k-1]` in order, and an empty example list yields the empty
vocabulary. -/
theorem build_vocab_dense_bijection (examples : List SentimentExample) :
    ((build_vocab examples).map Prod.fst).Nodup ∧
    (∀ w : String, w ∈ (build_vocab examples).map Prod.fst ↔
      ∃ e ∈ examples, w ∈ e.words) ∧
    ((build_vocab examples).map Prod.snd =
      (List.range (build_vocab examples).length).map Int.ofNat) ∧
    build_vocab [] = [] := by
  have hkeys : (build_vocab examples).map Prod.fst
      = dedupFirst (examples.flatMap (fun e => e.words)) := by
    simp only [build_vocab, List.map_map]
    exact List.enum_map_snd _
  have hlen : (build_vocab examples).length
      = (dedupFirst (examples.flatMap (fun e => e.words))).length := by
    simp only [build_vocab, List.length_map, List.enum_length]
  refine ⟨?_, ?_, ?_, rfl⟩
  · rw [hkeys]
    exact nodup_dedupFirst _
  · intro w
    rw [hkeys, mem_dedupFirst]
    exact List.mem_flatMap
  · rw [hlen]
    simp only [build_vocab, List.map_map]
    rw [← List.enum_map_fst (dedupFirst (examples.flatMap (fun e => e.words))),
      List.map_map]
    rfl

/-- C4: on a file whose every line is a text field, one tab, and an
integer label field, the reader returns exactly one example per line, in
file order, tokenizing the text field and parsing the label field. -/
theorem read_sentiment_examples_wellformed (tok : String → List String)
    (rows : List (String × String × Int))
    (h : ∀ r ∈ rows, splitTab (r.1 ++ "\t" ++ r.2.1) = [r.1, r.2.1] ∧
      pyInt r.2.1 = some r.2.2) :
    read_sentiment_examples tok (rows.map (fun r => r.1 ++ "\t" ++ r.2.1)) =
      Except.ok (rows.map (fun r => ⟨tok r.1, r.2.2⟩)) := by
  induction rows with
  | nil => rfl
  | cons r rows ih =>
    obtain ⟨h1, h2⟩ := h r (List.mem_cons_self r rows)
    have hp : parseLine tok (r.1 ++ "\t" ++ r.2.1) =
        Except.ok ⟨tok r.1, r.2.2⟩ := by
      simp only [parseLine, h1, h2]
    have hr := ih (fun q hq => h q (List.mem_cons_of_mem r hq))
    simp only [List.map_cons, read_sentiment_examples, hp, hr]

/-- C4 witness: a concrete two-line well-formed file. -/
theorem read_sentiment_examples_wellformed_witness :
    read_sentiment_examples (fun s => [s])
        ([(("good movie" : String), ("1" : String), (1 : Int)),
          ("bad movie", "0", 0)].map (fun r => r.1 ++ "\t" ++ r.2.1)) =
      Except.ok
        ([(("good movie" : String), ("1" : String), (1 : Int)),
          ("bad movie", "0", 0)].map
            (fun r => ⟨(fun s => [s]) r.1, r.2.2⟩)) :=
  read_sentiment_examples_wellformed (fun s => [s])
    [("good movie", "1", 1), ("bad movie", "0", 0)] (by decide)

/-- An error on any line of the file aborts the whole read with an
error. -/
theorem read_error_of_mem (tok : String → List String) (lines : List String)
    (l : String) (e : ReadError) (hmem : l ∈ lines)
    (hp : parseLine tok l = Except.error e) :
    ∃ e', read_sentiment_examples tok lines = Except.error e' := by
  induction lines with
  | nil => cases hmem
  | cons a rest ih =>
    rcases List.mem_cons.mp hmem with rfl | hmem'
    · exact ⟨e, by simp only [read_sentiment_examples, hp]⟩
    · cases hpa : parseLine tok a with
      | error e2 => exact ⟨e2, by simp only [read_sentiment_examples, hpa]⟩
      | ok ex =>
        obtain ⟨e', he'⟩ := ih hmem'
        exact ⟨e', by simp only [read_sentiment_examples, hpa, he']⟩

/-- C7: a malformed line — no tab separator, or a label field that is not
a valid integer — makes the whole read fail with an error of the matching
kind, and no example list is returned. -/
theorem read_sentiment_examples_failfast (tok : String → List String)
    (lines : List String) (l : String) (hmem : l ∈ lines)
    (hmal : (∃ t, splitTab l = [t]) ∨
      (∃ t s rest, splitTab l = t :: s :: rest ∧ pyInt s = none)) :
    (∃ e, read_sentiment_examples tok lines = Except.error e) ∧
    (∀ es, read_sentiment_examples tok lines ≠ Except.ok es) ∧
    (∀ t, splitTab l = [t] →
      parseLine tok l = Except.error ReadError.indexOutOfRange) ∧
    (∀ t s rest, splitTab l = t :: s :: rest → pyInt s = none →
      parseLine tok l = Except.error (ReadError.intFormat s)) := by
  have hp : ∃ e, parseLine tok l = Except.error e := by
    rcases hmal with ⟨t, ht⟩ | ⟨t, s, rest, ht, hs⟩
    · exact ⟨ReadError.indexOutOfRange, by simp only [parseLine, ht]⟩
    · exact ⟨ReadError.intFormat s, by simp only [parseLine, ht, hs]⟩
  obtain ⟨e, he⟩ := hp
  obtain ⟨e', he'⟩ := read_error_of_mem tok lines l e hmem he
  refine ⟨⟨e', he'⟩, ?_, ?_, ?_⟩
  · intro es hc
    rw [he'] at hc
    exact Except.noConfusion hc
  · intro t ht
    simp only [parseLine, ht]
  · intro t s rest ht hs
    simp only [parseLine, ht, hs]

/-- C7 witness: a file with one good line and one line with no tab. -/
theorem read_sentiment_examples_failfast_witness :
    (∃ e, read_sentiment_examples (fun s => [s]) ["good\t1", "nolabel"] =
      Except.error e) ∧
    (∀ es, read_sentiment_examples (fun s => [s]) ["good\t1", "nolabel"] ≠
      Except.ok es) ∧
    (∀ t, splitTab "nolabel" = [t] →
      parseLine (fun s => [s]) "nolabel" =
        Except.error ReadError.indexOutOfRange) ∧
    (∀ t s rest, splitTab "nolabel" = t :: s :: rest → pyInt s = none →
      parseLine (fun s => [s]) "nolabel" =
        Except.error (ReadError.intFormat s)) :=
  read_sentiment_examples_failfast (fun s => [s]) ["good\t1", "nolabel"]
    "nolabel" (by decide) (Or.inl ⟨"nolabel", by decide⟩)

/-- C6 counterexample: contrary to the claim that empty lines are skipped
without error, a file whose second line is empty makes the read fail with
an index error instead of returning the first example. -/
theorem read_sentiment_examples_empty_line_counterexample :
    read_sentiment_examples (fun s => [s]) ["good\t1\n", "\n"] =
      Except.error ReadError.indexOutOfRange := by decide

/-- C6 (amended): the reader processes every line, empty ones included;
an empty line (`""` or a bare newline) has no tab, so a file containing
one yields an error and no example list. -/
theorem read_sentiment_examples_errors_on_empty_line
    (tok : String → List String) (lines : List String)
    (h : "" ∈ lines ∨ "\n" ∈ lines) :
    (∃ e, read_sentiment_examples tok lines = Except.error e) ∧
    (∀ es, read_sentiment_examples tok lines ≠ Except.ok es) := by
  have hp : ∃ l ∈ lines, parseLine tok l = Except.error ReadError.indexOutOfRange := by
    rcases h with h | h
    · exact ⟨"", h, rfl⟩
    · exact ⟨"\n", h, rfl⟩
  obtain ⟨l, hmem, hl⟩ := hp
  obtain ⟨e', he'⟩ := read_error_of_mem tok lines l _ hmem hl
  refine ⟨⟨e', he'⟩, fun es hc => ?_⟩
  rw [he'] at hc
  exact Except.noConfusion hc

/-- C6 amended-claim witness: a concrete file with an empty line. -/
theorem read_sentiment_examples_errors_on_empty_line_witness :
    (∃ e, read_sentiment_examples (fun s => [s]) ["good\t1\n", "\n"] =
      Except.error e) ∧
    (∀ es, read_sentiment_examples (fun s => [s]) ["good\t1\n", "\n"] ≠
      Except.ok es) :=
  read_sentiment_examples_errors_on_empty_line (fun s => [s])
    ["good\t1\n", "\n"] (Or.inr (by decide))

/-- C9: a line with two or more tabs is accepted silently: the text field
is the part before the first tab, the label is the integer value of the
second field, and every later field is ignored. -/
theorem read_sentiment_examples_extra_tabs (tok : String → List String)
    (l t s r1 : String) (rrest : List String) (n : Int)
    (h1 : splitTab l = t :: s :: r1 :: rrest) (h2 : pyInt s = some n) :
    parseLine tok l = Except.ok ⟨tok t, n⟩ ∧
    read_sentiment_examples tok [l] = Except.ok [⟨tok t, n⟩] := by
  have hp : parseLine tok l = Except.ok ⟨tok t, n⟩ := by
    simp only [parseLine, h1, h2]
  exact ⟨hp, by simp only [read_sentiment_examples, hp]⟩

/-- C9 witness: a concrete line with two tabs and a trailing extra
field. -/
theorem read_sentiment_examples_extra_tabs_witness :
    parseLine (fun s => [s]) "good movie\t1\textra" =
      Except.ok ⟨["good movie"], 1⟩ ∧
    read_sentiment_examples (fun s => [s]) ["good movie\t1\textra"] =
      Except.ok [⟨["good movie"], 1⟩] :=
  read_sentiment_examples_extra_tabs (fun s => [s]) "good movie\t1\textra"
    "good movie" "1" "extra" [] 1 (by decide) (by decide)

/-- C5 counterexample: `bag_of_words` is not total over arbitrary
mappings — a mapping whose value is not a valid position makes the write
raise an index error. -/
theorem bag_of_words_not_total_counterexample :
    bag_of_words ["a"] [("a", 5)] false = none := by decide

/-- C5 (amended): `bag_of_words` completes without error, in both modes,
on every token list, whenever every index value of the mapping is a valid
tensor position (`-|V| ≤ v < |V|`); unknown words remain a silent no-op.
Out-of-range index values instead raise an index error. -/
theorem bag_of_words_total_on_valid_indices (text : List String)
    (vocab : List (String × Int)) (b : Bool)
    (h : ∀ p ∈ vocab, -(vocab.length : Int) ≤ p.2 ∧ p.2 < (vocab.length : Int)) :
    ∃ r, bag_of_words text vocab b = some r ∧ r.length = vocab.length := by
  have hvalid : ∀ (ws : List String), ∀ w ∈ ws, ∀ i,
      lookup vocab w = some i →
      -((List.replicate vocab.length (0 : Nat)).length : Int) ≤ i ∧
        i < ((List.replicate vocab.length (0 : Nat)).length : Int) := by
    intro ws w _ i hi
    rw [List.length_replicate]
    exact h _ (lookup_mem vocab w i hi)
  cases b with
  | false =>
    obtain ⟨r, hr, hrlen⟩ := bowWrite_total vocab (fun w => text.count w)
      (dedupFirst text) (List.replicate vocab.length 0)
      (hvalid (dedupFirst text))
    refine ⟨r, ?_, by rw [hrlen, List.length_replicate]⟩
    simp only [bag_of_words, Bool.false_eq_true, if_false]
    exact hr
  | true =>
    obtain ⟨r, hr, hrlen⟩ := bowWrite_total vocab (fun _ => 1) text
      (List.replicate vocab.length 0) (hvalid text)
    refine ⟨r, ?_, by rw [hrlen, List.length_replicate]⟩
    simp only [bag_of_words, if_true]
    exact hr

/-- C5 amended-claim witness: a concrete mapping with valid indices and a
token list with an unknown word. -/
theorem bag_of_words_total_on_valid_indices_witness :
    ∃ r, bag_of_words ["a", "unknown"] [("a", 0), ("b", 1)] true = some r ∧
      r.length = 2 :=
  bag_of_words_total_on_valid_indices ["a", "unknown"] [("a", 0), ("b", 1)]
    true (by decide)

/-- Position of the first occurrence of `w` (length of the list when `w`
does not occur). -/
def idxOf (w : String) : List String → Nat
  | [] => 0
  | x :: rest => if x = w then 0 else idxOf w rest + 1

/-- Filtering preserves the relative order of first occurrences of two
surviving elements. -/
theorem idxOf_filter_lt (p : String → Bool) (l : List String) (a b : String)
    (hpa : p a = true) (hpb : p b = true) (ha : a ∈ l) (hb : b ∈ l)
    (h : idxOf a l < idxOf b l) :
    idxOf a (l.filter p) < idxOf b (l.filter p) := by
  induction l with
  | nil => cases ha
  | cons x rest ih =>
    by_cases hxa : x = a
    · subst hxa
      have hba : x ≠ b := by
        intro hc
        subst hc
        exact Nat.lt_irrefl _ h
      rw [List.filter_cons_of_pos hpa]
      simp only [idxOf, if_neg hba, if_true]
      omega
    · by_cases hxb : x = b
      · subst hxb
        simp only [idxOf, if_neg hxa, if_true] at h
        omega
      · have ha' : a ∈ rest :=
          (List.mem_cons.mp ha).resolve_left (fun hc => hxa hc.symm)
        have hb' : b ∈ rest :=
          (List.mem_cons.mp hb).resolve_left (fun hc => hxb hc.symm)
        simp only [idxOf, if_neg hxa, if_neg hxb] at h
        have h' : idxOf a rest < idxOf b rest := by omega
        cases hpx : p x with
        | true =>
          rw [List.filter_cons_of_pos hpx]
          simp only [idxOf, if_neg hxa, if_neg hxb]
          exact Nat.succ_lt_succ (ih ha' hb' h')
        | false =>
          rw [List.filter_cons_of_neg (by simp [hpx])]
          exact ih ha' hb' h'

/-- `dedupFirst` preserves the relative order of first occurrences. -/
theorem dedupFirst_order (l : List String) (a b : String)
    (ha : a ∈ l) (hb : b ∈ l) (h : idxOf a l < idxOf b l) :
    idxOf a (dedupFirst l) < idxOf b (dedupFirst l) := by
  induction l with
  | nil => cases ha
  | cons x rest ih =>
    by_cases hxa : x = a
    · subst hxa
      have hbx : x ≠ b := by
        intro hc
        subst hc
        exact Nat.lt_irrefl _ h
      simp only [dedupFirst, idxOf, if_neg hbx, if_true]
      omega
    · by_cases hxb : x = b
      · subst hxb
        simp only [idxOf, if_neg hxa, if_true] at h
        omega
      · have ha' : a ∈ rest :=
          (List.mem_cons.mp ha).resolve_left (fun hc => hxa hc.symm)
        have hb' : b ∈ rest :=
          (List.mem_cons.mp hb).resolve_left (fun hc => hxb hc.symm)
        simp only [idxOf, if_neg hxa, if_neg hxb] at h
        have hIH := ih ha' hb' (by omega)
        simp only [dedupFirst, idxOf, if_neg hxa, if_neg hxb]
        refine Nat.succ_lt_succ (idxOf_filter_lt _ (dedupFirst rest) a b
          (decide_eq_true (fun hc => hxa hc.symm))
          (decide_eq_true (fun hc => hxb hc.symm))
          ((mem_dedupFirst a rest).mpr ha')
          ((mem_dedupFirst b rest).mpr hb') hIH)

/-- In a duplicate-free list, an element occurring strictly after another
splits the list into a prefix holding the earlier element and a suffix
free of both. -/
theorem exists_split_after (l : List String) (a b : String) (hnd : l.Nodup)
    (h : idxOf a l < idxOf b l) (hb : b ∈ l) :
    ∃ xs ys, l = xs ++ b :: ys ∧ a ∉ ys ∧ b ∉ ys := by
  induction l with
  | nil => cases hb
  | cons x rest ih =>
    rw [List.nodup_cons] at hnd
    by_cases hxb : x = b
    · subst hxb
      by_cases hxa : x = a
      · subst hxa
        exact absurd h (Nat.lt_irrefl _)
      · simp only [idxOf, if_neg hxa, if_true] at h
        omega
    · have hb' : b ∈ rest :=
        (List.mem_cons.mp hb).resolve_left (fun hc => hxb hc.symm)
      by_cases hxa : x = a
      · subst hxa
        obtain ⟨s, t, hst⟩ := List.append_of_mem hb'
        refine ⟨x :: s, t, by rw [hst, List.cons_append], ?_, ?_⟩
        · intro hc
          apply hnd.1
          rw [hst]
          exact List.mem_append.mpr (Or.inr (List.mem_cons_of_mem b hc))
        · have hrest : rest.Nodup := hnd.2
          rw [hst] at hrest
          have hbt := List.Nodup.of_append_right hrest
          rw [List.nodup_cons] at hbt
          exact hbt.1
      · simp only [idxOf, if_neg hxa, if_neg hxb] at h
        obtain ⟨xs, ys, heq, hays, hbys⟩ := ih hnd.2 (by omega) hb'
        exact ⟨x :: xs, ys, by rw [heq, List.cons_append], hays, hbys⟩

/-- The last write over a concatenation is the last write of the second
part, falling back to the first part. -/
theorem lastWrite_append (vocab : List (String × Int)) (n j : Nat)
    (xs ys : List String) :
    lastWrite vocab n j (xs ++ ys) =
      match lastWrite vocab n j ys with
      | some u => some u
      | none => lastWrite vocab n j xs := by
  induction xs with
  | nil =>
    simp only [List.nil_append]
    cases lastWrite vocab n j ys <;> rfl
  | cons x xs ih =>
    have hstep : lastWrite vocab n j ((x :: xs) ++ ys) =
        match lastWrite vocab n j (xs ++ ys) with
        | some u => some u
        | none =>
            match lookup vocab x with
            | none => none
            | some i => if normIdx n i = (j : Int) then some x else none := rfl
    rw [hstep, ih]
    cases lastWrite vocab n j ys <;> rfl

/-- No processed word writes to entry `j` when every looked-up index of a
processed word normalizes away from `j`. -/
theorem lastWrite_none (vocab : List (String × Int)) (n j : Nat)
    (ws : List String)
    (h : ∀ w ∈ ws, ∀ i, lookup vocab w = some i → normIdx n i ≠ (j : Int)) :
    lastWrite vocab n j ws = none := by
  induction ws with
  | nil => rfl
  | cons w ws ih =>
    have hrec := ih (fun u hu => h u (List.mem_cons_of_mem w hu))
    cases hlk : lookup vocab w with
    | none => simp only [lastWrite, hrec, hlk]
    | some k =>
      simp only [lastWrite, hrec, hlk,
        if_neg (h w (List.mem_cons_self w ws) k hlk)]

/-- Every index the mapping can return for `w` is a valid tensor position
of a length-`n` vector. -/
def validLookup (vocab : List (String × Int)) (n : Nat) (w : String) : Prop :=
  ∀ i, lookup vocab w = some i → -(n : Int) ≤ i ∧ i < (n : Int)

instance (vocab : List (String × Int)) (n : Nat) (w : String) :
    Decidable (validLookup vocab n w) :=
  match h : lookup vocab w with
  | none => isTrue (by intro i hi; rw [h] at hi; exact Option.noConfusion hi)
  | some k =>
      if hk : -(n : Int) ≤ k ∧ k < (n : Int) then
        isTrue (by
          intro i hi
          rw [h] at hi
          injection hi with he
          rw [← he]
          exact hk)
      else isFalse (fun hc => hk (hc k h))

/-- No index the mapping can return for `w` normalizes to `j`. -/
def avoidIdx (vocab : List (String × Int)) (n : Nat) (j : Int) (w : String) :
    Prop :=
  ∀ i, lookup vocab w = some i → normIdx n i ≠ j

instance (vocab : List (String × Int)) (n : Nat) (j : Int) (w : String) :
    Decidable (avoidIdx vocab n j w) :=
  match h : lookup vocab w with
  | none => isTrue (by intro i hi; rw [h] at hi; exact Option.noConfusion hi)
  | some k =>
      if hk : normIdx n k = j then isFalse (fun hc => hc k h hk)
      else
        isTrue (by
          intro i hi
          rw [h] at hi
          injection hi with he
          rw [← he]
          exact hk)

/-- C10: in count mode, when two distinct words share one index (a
non-injective mapping) and no other word of the text lands on that index,
the entry at the shared index is the occurrence count of the word whose
first occurrence in the token list comes latest — the one written last in
the iteration over the distinct words — not the sum of the two counts. -/
theorem bag_of_words_count_noninjective_overwrite (text : List String)
    (vocab : List (String × Int)) (w1 w2 : String) (i : Nat)
    (h1 : lookup vocab w1 = some ((i : Int)))
    (h2 : lookup vocab w2 = some ((i : Int)))
    (hw1 : w1 ∈ text) (hw2 : w2 ∈ text)
    (horder : idxOf w1 text < idxOf w2 text)
    (hothers : ∀ w ∈ text, w = w1 ∨ w = w2 ∨
      avoidIdx vocab vocab.length ((i : Int)) w)
    (hvalid : ∀ w ∈ text, validLookup vocab vocab.length w) :
    ∃ r, bag_of_words text vocab false = some r ∧
      r[i]? = some (text.count w2) ∧
      r[i]? ≠ some (text.count w1 + text.count w2) := by
  have hvalid' : ∀ w ∈ dedupFirst text, ∀ k, lookup vocab w = some k →
      -((List.replicate vocab.length (0 : Nat)).length : Int) ≤ k ∧
        k < ((List.replicate vocab.length (0 : Nat)).length : Int) := by
    intro w hw k hk
    rw [List.length_replicate]
    exact hvalid w ((mem_dedupFirst w text).mp hw) k hk
  obtain ⟨r, hr, hrlen⟩ := bowWrite_total vocab (fun w => text.count w)
    (dedupFirst text) (List.replicate vocab.length 0) hvalid'
  have hgw := bowWrite_getElem? vocab (fun w => text.count w)
    (dedupFirst text) (List.replicate vocab.length 0) r i hr
  rw [List.length_replicate] at hgw
  have hord : idxOf w1 (dedupFirst text) < idxOf w2 (dedupFirst text) :=
    dedupFirst_order text w1 w2 hw1 hw2 horder
  obtain ⟨xs, ys, hsplit, haYs, hbYs⟩ := exists_split_after (dedupFirst text)
    w1 w2 (nodup_dedupFirst text) hord ((mem_dedupFirst _ _).mpr hw2)
  have hysnone : lastWrite vocab vocab.length i ys = none := by
    apply lastWrite_none
    intro w hwys k hk
    have hwD : w ∈ dedupFirst text := by
      rw [hsplit]
      exact List.mem_append.mpr (Or.inr (List.mem_cons_of_mem w2 hwys))
    have hwt : w ∈ text := (mem_dedupFirst _ _).mp hwD
    rcases hothers w hwt with rfl | rfl | havoid
    · exact absurd hwys haYs
    · exact absurd hwys hbYs
    · exact havoid k hk
  have hlw : lastWrite vocab vocab.length i (dedupFirst text) = some w2 := by
    rw [hsplit, lastWrite_append]
    have hcons : lastWrite vocab vocab.length i (w2 :: ys) = some w2 := by
      simp only [lastWrite, hysnone, h2,
        normIdx_of_nonneg _ _ (Int.natCast_nonneg i)]
      simp
    rw [hcons]
  rw [hlw] at hgw
  have hentry : r[i]? = some (text.count w2) := hgw
  refine ⟨r, ?_, hentry, ?_⟩
  · simp only [bag_of_words, Bool.false_eq_true, if_false]
    exact hr
  · intro hc
    rw [hentry] at hc
    injection hc with hce
    have hzero : text.count w1 = 0 := by omega
    exact (List.count_eq_zero.mp hzero) hw1

/-- C10 witness: `"x"` and `"y"` share index 0; the entry holds the count
of `"y"` (first occurring after `"x"`), not the sum. -/
theorem bag_of_words_count_noninjective_overwrite_witness :
    ∃ r, bag_of_words ["x", "y", "x"] [("x", 0), ("y", 0)] false = some r ∧
      r[(0 : Nat)]? = some (List.count "y" ["x", "y", "x"]) ∧
      r[(0 : Nat)]? ≠
        some (List.count "x" ["x", "y", "x"] + List.count "y" ["x", "y", "x"]) :=
  bag_of_words_count_noninjective_overwrite ["x", "y", "x"]
    [("x", 0), ("y", 0)] "x" "y" 0 (by decide) (by decide) (by decide)
    (by decide) (by decide) (by decide) (by decide)

-- sanity checks on concrete inputs
example : pyInt " 12\n" = some 12 := by decide
example : pyInt "-5" = some (-5) := by decide
example : pyInt "a1" = none := by decide
example : pyInt "" = none := by decide
example : splitTab "good movie\t1" = ["good movie", "1"] := by decide
example : splitTab "\n" = ["\n"] := by decide
example :
    read_sentiment_examples (fun s => [s]) ["good movie\t1"] =
      Except.ok [⟨["good movie"], 1⟩] := by decide
example :
    read_sentiment_examples (fun s => [s]) ["\n"] =
      Except.error ReadError.indexOutOfRange := by decide
example :
    build_vocab [⟨["good", "movie"], 1⟩, ⟨["bad", "movie"], 0⟩] =
      [("good", 0), ("movie", 1), ("bad", 2)] := by decide
example :
    bag_of_words ["good", "movie", "good"] [("good", 0), ("movie", 1), ("bad", 2)] false =
      some [2, 1, 0] := by decide
example :
    bag_of_words ["good", "movie", "good"] [("good", 0), ("movie", 1), ("bad", 2)] true =
      some [1, 1, 0] := by decide
example : bag_of_words ["a"] [("a", 5)] false = none := by decide
